import Mathlib

/-!
Shallow embedding of the `copilot-more` upstream dispatch engine
(`copilot_more/api_key_manager.py`, `copilot_more/account_manager.py`,
`copilot_more/server.py`, `copilot_more/providers/*.py`) together with
theorems settling the specification claims about it.

Conventions:
* Python `float` credit balances and unix-time values are modelled as `ℚ`;
  token counts as `ℕ`; byte strings as `List Char`.
* Methods that mutate `self` are modelled as functions returning the updated
  record (together with the returned value).
-/

namespace CopilotMore

/-! ## api_key_manager.py -/

/-- Embedding of the `ApiKeyInfo` dataclass of `copilot_more/api_key_manager.py`. -/
structure ApiKeyInfo where
  key : String
  user_id : String
  created_at : Int
  credits : ℚ
  total_tokens_used : ℕ
  enabled : Bool
deriving DecidableEq, Repr

/-- Embedding of `ApiKeyInfo.has_sufficient_credits`: `estimated_cost = estimated_tokens / 1000;
return self.credits >= estimated_cost and self.enabled`. -/
def ApiKeyInfo.has_sufficient_credits (k : ApiKeyInfo) (estimated_tokens : ℕ) : Bool :=
  decide ((estimated_tokens : ℚ) / 1000 ≤ k.credits) && k.enabled

/-- Embedding of `ApiKeyInfo.deduct_tokens`: cost is `tokens_used / 500000`; on sufficient
credits subtract the cost, add to `total_tokens_used` and return `True`,
otherwise mutate nothing and return `False`.  Returns (new state, result). -/
def ApiKeyInfo.deduct_tokens (k : ApiKeyInfo) (tokens_used : ℕ) : ApiKeyInfo × Bool :=
  let credit_cost : ℚ := (tokens_used : ℚ) / 500000
  if credit_cost ≤ k.credits then
    ({ k with credits := k.credits - credit_cost,
              total_tokens_used := k.total_tokens_used + tokens_used }, true)
  else (k, false)

/-- Embedding of `ApiKeyManager`: the `api_keys` dict is modelled as an association list. -/
structure ApiKeyManager where
  api_keys : List (String × ApiKeyInfo)
deriving DecidableEq, Repr

/-- Replacing the info stored under a key (in-place mutation of a dict value). -/
def ApiKeyManager.setKey (m : ApiKeyManager) (api_key : String) (info : ApiKeyInfo) :
    ApiKeyManager :=
  { api_keys := m.api_keys.map (fun p => if p.1 = api_key then (p.1, info) else p) }

/-- Embedding of `ApiKeyManager.get_key_info`: `self.api_keys.get(api_key)`. -/
def ApiKeyManager.get_key_info (m : ApiKeyManager) (api_key : String) : Option ApiKeyInfo :=
  m.api_keys.lookup api_key

/-- Embedding of `ApiKeyManager.validate_key`: look the key up and check
`has_sufficient_credits`; `False` for an unknown key. -/
def ApiKeyManager.validate_key (m : ApiKeyManager) (api_key : String)
    (estimated_tokens : ℕ) : Bool :=
  match m.get_key_info api_key with
  | some key_info => key_info.has_sufficient_credits estimated_tokens
  | none => false

/-- Embedding of `ApiKeyManager.deduct_tokens`: delegate to the key's `deduct_tokens`;
`False` (and no mutation) for an unknown key. -/
def ApiKeyManager.deduct_tokens (m : ApiKeyManager) (api_key : String)
    (tokens_used : ℕ) : ApiKeyManager × Bool :=
  match m.get_key_info api_key with
  | some key_info =>
      let r := key_info.deduct_tokens tokens_used
      (m.setKey api_key r.1, r.2)
  | none => (m, false)

/-- Running a whole sequence of `deduct_tokens` calls on one `ApiKeyInfo`;
the boolean is `true` iff every single debit succeeded. -/
def debitSeq (k : ApiKeyInfo) : List ℕ → ApiKeyInfo × Bool
  | [] => (k, true)
  | n :: rest =>
      let r := k.deduct_tokens n
      let r2 := debitSeq r.1 rest
      (r2.1, r.2 && r2.2)

/-- A concrete API key used to evaluate the definitions: one credit, enabled. -/
def testKey : ApiKeyInfo :=
  { key := "cm-test", user_id := "u", created_at := 0, credits := 1,
    total_tokens_used := 0, enabled := true }

/-- A concrete one-key manager. -/
def testManager : ApiKeyManager := { api_keys := [("cm-test", testKey)] }

/-! ## account_manager.py and config.py -/

/-- Embedding of the `RateLimitWindow` dataclass of `copilot_more/config.py`. -/
structure RateLimitWindow where
  duration : ℚ
  max_requests : ℕ
deriving DecidableEq, Repr

/-- Embedding of `DEFAULT_RATE_LIMIT_WINDOWS` of `copilot_more/config.py`. -/
def DEFAULT_RATE_LIMIT_WINDOWS : List RateLimitWindow :=
  [⟨10, 2⟩, ⟨60, 10⟩, ⟨3600, 40⟩]

/-- Embedding of the `AccessToken` dataclass of `copilot_more/account_manager.py`. -/
structure AccessToken where
  token : String
  expires_at : ℚ
  rate_limited_until : ℚ := 0
  last_used : ℚ := 0
deriving DecidableEq, Repr

/-- Embedding of `AccessToken.is_valid`: `self.expires_at > time.time() + 60`. -/
def AccessToken.is_valid (t : AccessToken) (now : ℚ) : Bool :=
  decide (now + 60 < t.expires_at)

/-- Embedding of `AccountInfo` of `copilot_more/account_manager.py`.  The SOCKS5
`proxy_config` field only feeds the network layer and is omitted.
`_bad_credentials` is modelled as `bad_credentials`. -/
structure AccountInfo where
  username : String
  refresh_token : String
  rate_limited_until : ℚ := 0
  bad_credentials : Bool := false
  access_token : Option AccessToken := none
  last_used : ℤ := 0
  rate_limit_windows : List RateLimitWindow := DEFAULT_RATE_LIMIT_WINDOWS
  request_timestamps : List ℚ := []
deriving DecidableEq, Repr

/-- Python's `max(window.duration for window in ...)` — the maximum of the window
durations of a nonempty list (Python's `max` raises on an empty list; on `[]`
this returns 0 and theorems assume nonemptiness where it matters). -/
def maxDuration : List RateLimitWindow → ℚ
  | [] => 0
  | w :: rest => (rest.map (·.duration)).foldl max w.duration

/-- The `for window in self.rate_limit_windows` loop of `is_rate_limited`:
return `true` on the first window whose request count reaches
`max_requests`. -/
def windowCheck (ts : List ℚ) (now : ℚ) : List RateLimitWindow → Bool
  | [] => false
  | w :: rest =>
      if w.max_requests ≤ (ts.filter (fun t => decide (now - w.duration < t))).length
      then true
      else windowCheck ts now rest

/-- Embedding of `AccountInfo.is_rate_limited`: external deadline check, then timestamp
pruning, then the per-window count check.  The pruning mutates
`request_timestamps`, so the updated account is returned as well. -/
def AccountInfo.is_rate_limited (a : AccountInfo) (now : ℚ) : Bool × AccountInfo :=
  if 0 < a.rate_limited_until ∧ now < a.rate_limited_until then (true, a)
  else
    let cutoff := now - maxDuration a.rate_limit_windows
    let ts := a.request_timestamps.filter (fun t => decide (cutoff < t))
    (windowCheck ts now a.rate_limit_windows, { a with request_timestamps := ts })

/-- Embedding of `AccountInfo.is_usable`: `True` outright when no access token is present
(`# No token yet, so can be used to get one`), otherwise
`not self.is_rate_limited() and not self._bad_credentials`. -/
def AccountInfo.is_usable (a : AccountInfo) (now : ℚ) : Bool × AccountInfo :=
  match a.access_token with
  | none => (true, a)
  | some _ =>
      let r := a.is_rate_limited now
      (!r.1 && !a.bad_credentials, r.2)

/-- Embedding of `AccountInfo.record_request`: append `now`, then prune timestamps older
than the largest window. -/
def AccountInfo.record_request (a : AccountInfo) (now : ℚ) : AccountInfo :=
  let appended := a.request_timestamps ++ [now]
  let cutoff := now - maxDuration a.rate_limit_windows
  { a with request_timestamps := appended.filter (fun t => decide (cutoff < t)) }

/-- Embedding of `AccountInfo.mark_rate_limited`: `rate_limited_until = time.time() + duration`. -/
def AccountInfo.mark_rate_limited (a : AccountInfo) (now : ℚ) (duration : ℚ) :
    AccountInfo :=
  { a with rate_limited_until := now + duration }

/-! ### Substring utilities (Python `in`, `str.find`, `bytes.endswith`) -/

/-- Whether `hay` starts with `pat`. -/
def startsList (pat hay : List Char) : Bool :=
  decide (hay.take pat.length = pat)

/-- Whether `hay` ends with `pat` (Python `endswith`). -/
def endsList (pat hay : List Char) : Bool :=
  decide (hay.drop (hay.length - pat.length) = pat)

/-- Python `hay.find(pat)`: index of the first occurrence, `none` for `-1`. -/
def findSub (hay pat : List Char) : Option ℕ :=
  match hay with
  | [] => if startsList pat [] then some 0 else none
  | _ :: t => if startsList pat hay then some 0 else (findSub t pat).map (· + 1)

/-- Python `pat in hay`. -/
def containsSub (hay pat : List Char) : Bool :=
  (findSub hay pat).isSome

/-- Number of (possibly overlapping) occurrences of `pat` in `hay`. -/
def countOccur (hay pat : List Char) : ℕ :=
  match hay with
  | [] => 0
  | _ :: t => (if startsList pat hay then 1 else 0) + countOccur t pat

/-! ### Token refresh (`AccountInfo.refresh_access_token`) -/

/-- An upstream HTTP response, reduced to the fields the refresh logic reads. -/
structure HttpResponse where
  status : ℕ
  body : List Char

/-- Outcome of a refresh attempt: success, or one of the two error messages
(`"Bad credentials for account ..."` vs `"Failed to refresh token ..."`). -/
inductive RefreshResult
  | success
  | badCredentials
  | refreshFailed
deriving DecidableEq, Repr

/-- The response handling of `AccountInfo.refresh_access_token`: 200 returns
the token data untouched; `status == 401` or a body containing
`"Bad credentials"` sets `_bad_credentials` and raises the bad-credentials
message; any other non-200 raises the refresh-failure message — but the
stray `self._bad_credentials = True` on the line before the `raise` runs on
this path too, so the flag is set for *every* non-200 response. -/
def AccountInfo.refresh_access_token (a : AccountInfo) (resp : HttpResponse) :
    AccountInfo × RefreshResult :=
  if resp.status = 200 then (a, .success)
  else if resp.status = 401 || containsSub resp.body "Bad credentials".data then
    ({ a with bad_credentials := true }, .badCredentials)
  else
    ({ a with bad_credentials := true }, .refreshFailed)

/-! ### Concrete accounts used by counterexamples and witnesses -/

/-- An account with no access token whose bad-credentials flag is set. -/
def badFlagAccount : AccountInfo :=
  { username := "alice", refresh_token := "gho_a", bad_credentials := true }

/-- A fresh account with no error state. -/
def freshAccount : AccountInfo :=
  { username := "bob", refresh_token := "gho_b" }

/-- A non-200, non-401 refresh response whose body does not mention
credentials. -/
def serverErrorResponse : HttpResponse :=
  ⟨500, "Internal Server Error".data⟩

/-- An account with two requests recorded inside the 10-second window. -/
def busyAccount : AccountInfo :=
  { username := "carol", refresh_token := "gho_c",
    rate_limit_windows := [⟨10, 2⟩], request_timestamps := [5, 6] }

/-! ## server.py and providers: streaming relay and token accounting -/

/-- The SSE terminal frame `b"data: [DONE]\n\n"`. -/
def doneSentinel : List Char := "data: [DONE]\n\n".data

/-- The per-chunk token counting of the streaming `response_generator`s:
if the chunk contains `"content":`, locate `"content"`, skip 11 characters,
find the next `",` marker and add the enclosed length divided by 4.  A chunk
without the marker — or whose `",` search fails (Python `find` returns
`-1 > content_start` is false) — contributes zero. -/
def chunkTokens (chunk : List Char) : ℕ :=
  if containsSub chunk "\"content\":".data then
    match findSub chunk "\"content\"".data with
    | some idx =>
        let content_start := idx + 11
        match (findSub (chunk.drop content_start) "\",".data).map (· + content_start) with
        | some content_end =>
            if content_start < content_end then (content_end - content_start) / 4 else 0
        | none => 0
    | none => 0
  else 0

/-- The running `total_tokens` accumulated over all chunks of a stream. -/
def totalStreamTokens (chunks : List (List Char)) : ℕ :=
  (chunks.map chunkTokens).sum

/-- Observable events of a streaming `response_generator`: a yielded byte
chunk, or a `deduct_tokens` call against the API-key table. -/
inductive StreamEvent where
  | chunk : List Char → StreamEvent
  | debit : ℕ → StreamEvent
deriving DecidableEq, Repr

/-- Embedding of `response_generator` of `server.py` (lines 187-252; identical logic in
`github_copilot_provider.py`) on the fault-free path: forward every chunk
while accumulating `chunkTokens`, call `deduct_tokens` once after the last
chunk, then append the `[DONE]` sentinel unless the last chunk already ends
with it.  A stream yielding no chunks at all leaves the local `chunk`
unbound and raises when `chunk.endswith` is evaluated; that exception is
converted to an interpreter-dependent SSE error frame, modelled as `none`. -/
def response_generator (chunks : List (List Char)) : Option (List StreamEvent) :=
  match chunks.getLast? with
  | none => none
  | some last =>
      some (chunks.map .chunk ++ [.debit (totalStreamTokens chunks)] ++
        (if endsList doneSentinel last then [] else [.chunk doneSentinel]))

/-- The debit calls occurring in an event trace, in order. -/
def debitsOf (events : List StreamEvent) : List ℕ :=
  events.filterMap (fun e => match e with | .debit n => some n | .chunk _ => none)

/-- The byte chunks delivered to the client, in order. -/
def bytesOf (events : List StreamEvent) : List (List Char) :=
  events.filterMap (fun e => match e with | .chunk b => some b | .debit _ => none)

/-- The full byte sequence delivered to the client. -/
def flatBytes (events : List StreamEvent) : List Char :=
  (bytesOf events).flatten

/-- Interpreting the debit calls of a trace against the API-key table
(`api_key_manager.deduct_tokens(api_key, total_tokens)`; the returned
boolean is ignored by the callers). -/
def runEffects (api_key : String) : ApiKeyManager → List StreamEvent → ApiKeyManager
  | m, [] => m
  | m, .debit n :: rest => runEffects api_key (m.deduct_tokens api_key n).1 rest
  | m, .chunk _ :: rest => runEffects api_key m rest

/-- One entry of `request_body["messages"]`; `content = none` models a
non-string content value (skipped by the length estimate). -/
structure ChatMessage where
  content : Option (List Char)
deriving DecidableEq, Repr

/-- The fields of a chat-completion request body read by the estimator. -/
structure ChatRequest where
  messages : List ChatMessage
  max_tokens : Option ℕ
  stream : Bool
deriving DecidableEq, Repr

/-- The pre-request estimate of `proxy_chat_completions` (server.py lines
416-425): sum of `len(content) // 4` over string message contents, plus
`max_tokens` (default 1000). -/
def estimateTokens (req : ChatRequest) : ℕ :=
  (req.messages.map (fun msg => (msg.content.getD []).length / 4)).sum +
    req.max_tokens.getD 1000

/-- One entry of the response's `choices` array; `content` is present only
when both `"message"` and `"content"` keys exist. -/
structure ChatChoice where
  content : Option (List Char)
deriving DecidableEq, Repr

/-- A parsed non-streaming response body.  `usage_total_tokens` models the
`usage.total_tokens` field when the upstream supplies it. -/
structure ChatResponse where
  choices : Option (List ChatChoice)
  usage_total_tokens : Option ℕ
deriving DecidableEq, Repr

/-- The non-streaming token count of `make_request` (server.py lines
257-263): sum of `len(choices[i].message.content) // 4`.  The `usage`
field of the response is never read. -/
def countResponseTokens (r : ChatResponse) : ℕ :=
  ((r.choices.getD []).map (fun c => (c.content.getD []).length / 4)).sum

/-- The non-streaming tail of `make_request` (server.py lines 253-273):
count the response tokens and deduct them from the API key (the boolean
result of the deduction is ignored). -/
def make_request_non_streaming (m : ApiKeyManager) (api_key : String)
    (r : ChatResponse) : ApiKeyManager × ℕ :=
  let total := countResponseTokens r
  ((m.deduct_tokens api_key total).1, total)

/-- Embedding of `response_generator` of `openai_compatible_provider.py` (lines 86-137)
on the fault-free path: identical relaying, counting and sentinel handling,
but the accumulated count is only logged — no `deduct_tokens` call is made
(`# We only count tokens, server handles deduction`). -/
def openai_response_generator (chunks : List (List Char)) : Option (List StreamEvent) :=
  match chunks.getLast? with
  | none => none
  | some last =>
      some (chunks.map .chunk ++
        (if endsList doneSentinel last then [] else [.chunk doneSentinel]))

/-- The non-streaming tail of `OpenAICompatibleProvider.make_request`
(lines 138-154): the token count is computed and logged but the key table
is untouched (`# Log token usage but don't deduct (server handles that)`). -/
def openai_make_request_non_streaming (m : ApiKeyManager) (r : ChatResponse) :
    ApiKeyManager × ℕ :=
  (m, countResponseTokens r)

/-- Checks that index 0 is the only index at which a prefix of `s` equals the
equally-long suffix of `s` (no nontrivial border). -/
def borderFreeB (s : List Char) : Bool :=
  (List.range s.length).all (fun j => j == 0 || !(decide (s.take j = s.drop (s.length - j))))

/-- A stream chunk carrying twelve characters of content. -/
def contentChunk : List Char :=
  "data: \x7b\"content\":\"hello world!\",\"role\":\"assistant\"\x7d\n\n".data

/-- A concrete request: one twelve-character message and no `max_tokens`. -/
def sampleRequest : ChatRequest :=
  { messages := [⟨some "hi there you".data⟩], max_tokens := none, stream := true }

/-- A concrete non-streaming response carrying `usage.total_tokens = 7`
and a five-character message content. -/
def usageResponse : ChatResponse :=
  { choices := some [⟨some "hello".data⟩], usage_total_tokens := some 7 }

/-! ## AccountManager round-robin (account_manager.py lines 186-208) -/

/-- The account state written back on a successful selection: `is_usable`
may prune the timestamp list, and `last_used = int(time.time())` is stamped
(`int()` truncates, which agrees with `⌊·⌋` for the nonnegative clock). -/
def pickF (now : ℚ) (a : AccountInfo) : AccountInfo :=
  { (a.is_usable now).2 with last_used := ⌊now⌋ }

/-- The `while checked_count < len(self.accounts)` loop of
`get_next_usable_account`: check the account under the cursor; on a usable
hit stamp `last_used`, advance the cursor one past the hit, and return the
account; otherwise store the (possibly pruned) account back, advance, and
continue.  `fuel` stands for `len(self.accounts) - checked_count`; the
`none` branch of the lookup is unreachable while the cursor stays below the
pool size. -/
def nextUsableGo (now : ℚ) : ℕ → List AccountInfo → ℕ →
    Option AccountInfo × List AccountInfo × ℕ
  | 0, accounts, idx => (none, accounts, idx)
  | fuel + 1, accounts, idx =>
      match accounts[idx]? with
      | none => (none, accounts, idx)
      | some a =>
          let r := a.is_usable now
          if r.1 then
            let a2 := { r.2 with last_used := ⌊now⌋ }
            (some a2, accounts.set idx a2, (idx + 1) % accounts.length)
          else
            nextUsableGo now fuel (accounts.set idx r.2) ((idx + 1) % accounts.length)

/-- Embedding of `AccountManager.get_next_usable_account`: `None` on an empty pool,
otherwise one full walk of the account array starting at the cursor. -/
def get_next_usable_account (accounts : List AccountInfo) (idx : ℕ) (now : ℚ) :
    Option AccountInfo × List AccountInfo × ℕ :=
  if accounts.isEmpty then (none, accounts, idx)
  else nextUsableGo now accounts.length accounts idx

/-- Runs `n` consecutive `get_next_usable_account` calls, threading the pool and
the cursor. -/
def runCalls (now : ℚ) : ℕ → List AccountInfo → ℕ →
    List (Option AccountInfo) × List AccountInfo × ℕ
  | 0, accounts, idx => ([], accounts, idx)
  | n + 1, accounts, idx =>
      let r := get_next_usable_account accounts idx now
      let rest := runCalls now n r.2.1 r.2.2
      (r.1 :: rest.1, rest.2.1, rest.2.2)

/-- A second fresh account for the two-account pool below. -/
def daveAccount : AccountInfo :=
  { username := "dave", refresh_token := "gho_d" }

/-- A concrete pool of two usable accounts. -/
def pool2 : List AccountInfo := [freshAccount, daveAccount]

/-- Helper: full characterisation of a successful `debitSeq` run. -/
theorem debitSeq_spec (k : ApiKeyInfo) (l : List ℕ) (h : (debitSeq k l).2 = true) :
    (debitSeq k l).1.credits = k.credits - (l.sum : ℚ) / 500000 ∧
    (0 ≤ k.credits → 0 ≤ (debitSeq k l).1.credits) := by
  induction l generalizing k with
  | nil =>
      exact ⟨by simp [debitSeq], fun h0 => by simpa [debitSeq] using h0⟩
  | cons n rest ih =>
      simp only [debitSeq, Bool.and_eq_true] at h
      simp only [debitSeq]
      obtain ⟨h1, h2⟩ := h
      by_cases hc : (n : ℚ) / 500000 ≤ k.credits
      · have hk1 : (k.deduct_tokens n).1 =
            { k with credits := k.credits - (n : ℚ) / 500000,
                     total_tokens_used := k.total_tokens_used + n } := by
          simp [ApiKeyInfo.deduct_tokens, hc]
        rw [hk1] at h2 ⊢
        have ihr := ih _ h2
        constructor
        · rw [ihr.1]
          show k.credits - (n : ℚ) / 500000 - _ = _
          push_cast [List.sum_cons]
          ring
        · intro _
          exact ihr.2 (by simpa using sub_nonneg.mpr hc)
      · simp [ApiKeyInfo.deduct_tokens, hc] at h1

/-- C1 (counterexample): the key `"cm-test"` exists, is enabled, and has
`credits = 1 ≥ 2000 / 500000`, yet `validate_key` returns `false` for an
estimate of 2000 tokens — `has_sufficient_credits` divides by 1000, not by
500000. -/
theorem validate_key_constant_counterexample :
    testManager.validate_key "cm-test" 2000 = false ∧
    testManager.get_key_info "cm-test" = some testKey ∧
    testKey.enabled = true ∧
    (2000 : ℚ) / 500000 ≤ testKey.credits := by
  have hl : testManager.get_key_info "cm-test" = some testKey := rfl
  refine ⟨?_, hl, rfl, by norm_num [testKey]⟩
  simp only [ApiKeyManager.validate_key, hl, ApiKeyInfo.has_sufficient_credits,
    testKey, Bool.and_true]
  rw [decide_eq_false]
  norm_num

/-- C1 (amended): `validate_key k n` returns `true` iff `k` exists in the key
table, is enabled, and its credits are at least `n / 1000` (the code divides
the estimated token count by 1000, not by 500000). -/
theorem validate_key_spec (m : ApiKeyManager) (k : String) (n : ℕ) :
    m.validate_key k n = true ↔
      ∃ info, m.get_key_info k = some info ∧ info.enabled = true ∧
        (n : ℚ) / 1000 ≤ info.credits := by
  unfold ApiKeyManager.validate_key
  cases h : m.get_key_info k with
  | none => simp
  | some info =>
      simp only [ApiKeyInfo.has_sufficient_credits, Bool.and_eq_true,
        decide_eq_true_eq, Option.some.injEq]
      constructor
      · rintro ⟨hcr, hen⟩
        exact ⟨info, rfl, hen, hcr⟩
      · rintro ⟨info', hi, hen, hcr⟩
        cases hi
        exact ⟨hcr, hen⟩

/-- C3: a debit succeeds iff `credits ≥ tokens / 500000`; a successful debit
subtracts exactly `tokens / 500000` from credits and adds `tokens` to
`total_tokens_used`; a failed debit leaves the key unchanged; and after any
sequence of successful debits the credits equal the initial credits minus the
summed cost and stay nonnegative (given a nonnegative start). -/
theorem deduct_tokens_spec (k : ApiKeyInfo) (n : ℕ) :
    ((k.deduct_tokens n).2 = true ↔ (n : ℚ) / 500000 ≤ k.credits)
    ∧ ((k.deduct_tokens n).2 = true →
        (k.deduct_tokens n).1.credits = k.credits - (n : ℚ) / 500000 ∧
        (k.deduct_tokens n).1.total_tokens_used = k.total_tokens_used + n)
    ∧ ((k.deduct_tokens n).2 = false → (k.deduct_tokens n).1 = k)
    ∧ ∀ l : List ℕ, (debitSeq k l).2 = true →
        (debitSeq k l).1.credits = k.credits - (l.sum : ℚ) / 500000
        ∧ (0 ≤ k.credits → 0 ≤ (debitSeq k l).1.credits) := by
  unfold ApiKeyInfo.deduct_tokens
  by_cases hc : (n : ℚ) / 500000 ≤ k.credits
  · refine ⟨by simp [hc], by simp [hc], by simp [hc], fun l h => debitSeq_spec k l h⟩
  · refine ⟨by simp [hc], by simp [hc], by simp [hc], fun l h => debitSeq_spec k l h⟩

/-- C3 (witness): evaluating the debit characterisation on `testKey` and the
successful debit sequence `[1000, 500]`. -/
theorem deduct_tokens_spec_witness :
    (testKey.deduct_tokens 1000).2 = true ∧
    (debitSeq testKey [1000, 500]).2 = true ∧
    (debitSeq testKey [1000, 500]).1.credits = 1 - (1500 : ℚ) / 500000 ∧
    0 ≤ (debitSeq testKey [1000, 500]).1.credits := by
  have h := deduct_tokens_spec testKey 1000
  have hseq : (debitSeq testKey [1000, 500]).2 = true := by
    norm_num [debitSeq, ApiKeyInfo.deduct_tokens, testKey]
  have hsum := h.2.2.2 [1000, 500] hseq
  refine ⟨h.1.mpr (by norm_num [testKey]), hseq, ?_, hsum.2 (by norm_num [testKey])⟩
  rw [hsum.1]
  norm_num [testKey]

/-- C2 (counterexample): an account with no access token but with the
bad-credentials flag set is reported usable — `is_usable` returns `True`
before looking at any flag when `access_token` is absent, so it does not
equal `¬bad_credentials ∧ ¬is_rate_limited`. -/
theorem is_usable_ignores_flags_without_token :
    (badFlagAccount.is_usable 0).1 = true ∧
    badFlagAccount.bad_credentials = true ∧
    (badFlagAccount.is_usable 0).1 ≠
      (!badFlagAccount.bad_credentials && !(badFlagAccount.is_rate_limited 0).1) := by
  refine ⟨rfl, rfl, ?_⟩
  simp [badFlagAccount, AccountInfo.is_usable]

/-- C2 (amended): `is_usable` is `true` iff the access token is absent, or
the account is neither rate limited nor flagged with bad credentials. -/
theorem is_usable_spec (a : AccountInfo) (now : ℚ) :
    (a.is_usable now).1 = true ↔
      (a.access_token = none ∨
        ((a.is_rate_limited now).1 = false ∧ a.bad_credentials = false)) := by
  unfold AccountInfo.is_usable
  cases h : a.access_token with
  | none => simp
  | some t =>
      simp only [h, Bool.and_eq_true, Bool.not_eq_true']
      constructor
      · rintro ⟨h1, h2⟩
        exact Or.inr ⟨h1, h2⟩
      · rintro (hn | ⟨h1, h2⟩)
        · cases hn
        · exact ⟨h1, h2⟩

/-- C6 (code evaluation at the failing input): a 500 response whose body does
not contain "Bad credentials" is classified as a plain refresh failure, yet
the account's bad-credentials flag is set anyway — the stray
`self._bad_credentials = True` before the `raise` runs on every non-200
path. -/
theorem refresh_failure_sets_bad_credentials :
    (freshAccount.refresh_access_token serverErrorResponse).2 = .refreshFailed ∧
    (freshAccount.refresh_access_token serverErrorResponse).1.bad_credentials = true ∧
    freshAccount.bad_credentials = false ∧
    serverErrorResponse.status ≠ 401 ∧
    containsSub serverErrorResponse.body "Bad credentials".data = false := by
  exact ⟨by decide, by decide, rfl, by decide, by decide⟩

/-! ### Rate-limit window lemmas (C8) -/

/-- The seed of a `foldl max` is a lower bound of the result. -/
theorem foldl_max_init (b : ℚ) (l : List ℚ) : b ≤ l.foldl max b := by
  induction l generalizing b with
  | nil => exact le_refl b
  | cons x xs ih => exact le_trans (le_max_left b x) (ih (max b x))

/-- Every member of the list is a lower bound of `foldl max`. -/
theorem foldl_max_mem {x : ℚ} : ∀ (l : List ℚ) (b : ℚ), x ∈ l → x ≤ l.foldl max b
  | [], _, hx => absurd hx (List.not_mem_nil x)
  | y :: ys, b, hx => by
      rcases List.mem_cons.mp hx with h | h
      · subst h
        exact le_trans (le_max_right b x) (foldl_max_init _ ys)
      · exact foldl_max_mem ys (max b y) h

/-- Each configured window duration is at most the largest one. -/
theorem duration_le_maxDuration {l : List RateLimitWindow} {w : RateLimitWindow}
    (hw : w ∈ l) : w.duration ≤ maxDuration l := by
  cases l with
  | nil => cases hw
  | cons w0 rest =>
      rcases List.mem_cons.mp hw with h | h
      · subst h
        exact foldl_max_init _ _
      · exact foldl_max_mem _ _ (List.mem_map_of_mem (·.duration) h)

/-- The window loop returns `true` iff some window is saturated. -/
theorem windowCheck_iff (ts : List ℚ) (now : ℚ) (l : List RateLimitWindow) :
    windowCheck ts now l = true ↔
      ∃ w ∈ l, w.max_requests ≤
        (ts.filter (fun t => decide (now - w.duration < t))).length := by
  induction l with
  | nil => simp [windowCheck]
  | cons w rest ih =>
      by_cases hw : w.max_requests ≤
          (ts.filter (fun t => decide (now - w.duration < t))).length
      · simp [windowCheck, hw]
      · simp only [windowCheck, if_neg hw, ih]
        constructor
        · rintro ⟨w', hmem, hcount⟩
          exact ⟨w', List.mem_cons_of_mem _ hmem, hcount⟩
        · rintro ⟨w', hmem, hcount⟩
          rcases List.mem_cons.mp hmem with h | h
          · subst h; exact absurd hcount hw
          · exact ⟨w', h, hcount⟩

/-- Counting a window over the pruned timestamp list equals counting the
spec's half-open interval `(now − d, now]` over the original list, provided
`d` is at most the pruning horizon and no timestamp lies in the future. -/
theorem count_pruned (ts : List ℚ) {now d maxD : ℚ} (hd : d ≤ maxD)
    (hts : ∀ t ∈ ts, t ≤ now) :
    (ts.filter (fun t => decide (now - maxD < t))).filter
        (fun t => decide (now - d < t)) =
      ts.filter (fun t => decide (now - d < t) && decide (t ≤ now)) := by
  rw [List.filter_filter]
  apply List.filter_congr
  intro t ht
  by_cases hp : now - d < t
  · have h2 : now - maxD < t := lt_of_le_of_lt (by linarith) hp
    simp [hp, h2, hts t ht]
  · simp [hp]

/-- C8: `is_rate_limited(now)` is `true` iff the external deadline lies in
the future or some configured window `(d, m)` has at least `m` timestamps in
the half-open interval `(now − d, now]` — a timestamp at exactly `now − d`
does not count.  Hypotheses: at least one window is configured (Python's
`max` raises otherwise), no recorded timestamp lies in the future, and the
clock is nonnegative. -/
theorem is_rate_limited_iff (a : AccountInfo) (now : ℚ)
    (hW : a.rate_limit_windows ≠ [])
    (hts : ∀ t ∈ a.request_timestamps, t ≤ now)
    (hnow : 0 ≤ now) :
    (a.is_rate_limited now).1 = true ↔
      (now < a.rate_limited_until ∨
        ∃ w ∈ a.rate_limit_windows, w.max_requests ≤
          (a.request_timestamps.filter
            (fun t => decide (now - w.duration < t) && decide (t ≤ now))).length) := by
  clear hW
  unfold AccountInfo.is_rate_limited
  by_cases hext : 0 < a.rate_limited_until ∧ now < a.rate_limited_until
  · rw [if_pos hext]
    constructor
    · intro _
      exact Or.inl hext.2
    · intro _
      rfl
  · have hnotfut : ¬ now < a.rate_limited_until := by
      intro hlt
      exact hext ⟨lt_of_le_of_lt hnow hlt, hlt⟩
    simp only [if_neg hext, windowCheck_iff]
    constructor
    · rintro ⟨w, hmem, hcount⟩
      refine Or.inr ⟨w, hmem, ?_⟩
      rwa [count_pruned a.request_timestamps (duration_le_maxDuration hmem) hts] at hcount
    · rintro (hfut | ⟨w, hmem, hcount⟩)
      · exact absurd hfut hnotfut
      · refine ⟨w, hmem, ?_⟩
        rwa [count_pruned a.request_timestamps (duration_le_maxDuration hmem) hts]

/-- C8 (witness): `busyAccount` has two timestamps (5 and 6) inside its
single `(10, 2)` window at time 7, so it is rate limited. -/
theorem is_rate_limited_iff_witness :
    busyAccount.rate_limit_windows ≠ [] ∧
    (∀ t ∈ busyAccount.request_timestamps, t ≤ (7 : ℚ)) ∧
    (0 : ℚ) ≤ 7 ∧
    (busyAccount.is_rate_limited 7).1 = true := by
  have hts : ∀ t ∈ busyAccount.request_timestamps, t ≤ (7 : ℚ) := by
    intro t ht
    simp only [busyAccount, List.mem_cons, List.not_mem_nil, or_false] at ht
    rcases ht with h | h <;> rw [h] <;> norm_num
  have hW : busyAccount.rate_limit_windows ≠ [] := by simp [busyAccount]
  refine ⟨hW, hts, by norm_num, ?_⟩
  refine (is_rate_limited_iff busyAccount 7 hW hts (by norm_num)).mpr (Or.inr ?_)
  refine ⟨⟨10, 2⟩, List.mem_cons_self _ _, ?_⟩
  norm_num [busyAccount, List.filter]

/-! ### Substring lemmas for the SSE sentinel (C7) -/

/-- Unfolding `startsList`. -/
theorem startsList_iff {pat hay : List Char} :
    startsList pat hay = true ↔ hay.take pat.length = pat := by
  simp [startsList]

/-- A pattern that starts a list is no longer than it. -/
theorem startsList_le_length {pat hay : List Char} (h : startsList pat hay = true) :
    pat.length ≤ hay.length := by
  rw [startsList_iff] at h
  have hlen := congrArg List.length h
  rw [List.length_take] at hlen
  omega

/-- A suffix of the second summand is a suffix of the concatenation. -/
theorem endsList_append {p b : List Char} (a : List Char) (h : endsList p b = true) :
    endsList p (a ++ b) = true := by
  simp only [endsList, decide_eq_true_eq] at h ⊢
  have hlen : p.length ≤ b.length := by
    by_contra hlt
    push_neg at hlt
    rw [Nat.sub_eq_zero_of_le (le_of_lt hlt), List.drop_zero] at h
    rw [h] at hlt
    exact absurd hlt (lt_irrefl _)
  rw [List.length_append, Nat.add_sub_assoc hlen, List.drop_append_eq_append_drop,
    List.drop_of_length_le (Nat.le_add_right _ _), Nat.add_sub_cancel_left,
    List.nil_append]
  exact h

/-- Whether a pattern starts `xs ++ ys` is decided inside `xs` when `xs` is
long enough. -/
theorem startsList_append_left {s xs : List Char} (ys : List Char)
    (hlen : s.length ≤ xs.length) :
    startsList s (xs ++ ys) = startsList s xs := by
  simp only [startsList]
  rw [List.take_append_eq_append_take, Nat.sub_eq_zero_of_le hlen, List.take_zero,
    List.append_nil]

/-- Border-freeness, element form. -/
theorem borderFree_take_drop_ne {s : List Char} (hbf : borderFreeB s = true) {j : ℕ}
    (hj0 : 0 < j) (hjn : j < s.length) : ¬ s.take j = s.drop (s.length - j) := by
  unfold borderFreeB at hbf
  rw [List.all_eq_true] at hbf
  have hj := hbf j (List.mem_range.mpr hjn)
  simp only [Bool.or_eq_true, beq_iff_eq, Bool.not_eq_true', decide_eq_false_iff_not] at hj
  rcases hj with h0 | hne
  · omega
  · exact hne

/-- A border-free pattern can start `xs ++ s` for short `xs` only when
`xs` is empty (no occurrence straddles the boundary). -/
theorem startsList_overhang {s xs : List Char} (hbf : borderFreeB s = true)
    (hlen : xs.length < s.length) (h : startsList s (xs ++ s) = true) : xs = [] := by
  rw [startsList_iff, List.take_append_eq_append_take,
    List.take_of_length_le (le_of_lt hlen)] at h
  rcases Nat.eq_zero_or_pos xs.length with hm0 | hmpos
  · exact List.eq_nil_of_length_eq_zero hm0
  · exfalso
    have htake : s.take xs.length = xs := by
      conv_lhs => rw [← h]
      rw [List.take_append_eq_append_take, List.take_of_length_le (le_refl _),
        Nat.sub_self, List.take_zero, List.append_nil]
    have hdrop : s.drop xs.length = s.take (s.length - xs.length) := by
      conv_lhs => rw [← h]
      rw [List.drop_append_eq_append_drop, List.drop_of_length_le (le_refl _),
        Nat.sub_self, List.drop_zero, List.nil_append]
    apply borderFree_take_drop_ne hbf (Nat.sub_pos_of_lt hlen)
      (by omega : s.length - xs.length < s.length)
    rw [show s.length - (s.length - xs.length) = xs.length by omega, ← hdrop]

/-- A text shorter than the pattern contains no occurrence. -/
theorem countOccur_short {pat : List Char} :
    ∀ {hay : List Char}, hay.length < pat.length → countOccur hay pat = 0 := by
  intro hay
  induction hay with
  | nil => intro _; rfl
  | cons c t ih =>
      intro hlt
      simp only [countOccur]
      have hstart : startsList pat (c :: t) = false := by
        cases hq : startsList pat (c :: t) with
        | false => rfl
        | true => exact absurd (startsList_le_length hq) (by omega)
      rw [hstart, if_neg (by simp), ih (by simpa using Nat.lt_of_succ_lt hlt)]

/-- Appending a nonempty border-free pattern to any text adds exactly one
occurrence. -/
theorem countOccur_append_self {s : List Char} (hbf : borderFreeB s = true)
    (hs : s ≠ []) : ∀ xs : List Char, countOccur (xs ++ s) s = countOccur xs s + 1
  | [] => by
      rw [List.nil_append]
      cases hsc : s with
      | nil => exact absurd hsc hs
      | cons c t =>
          have h1 : startsList (c :: t) (c :: t) = true := by
            rw [startsList_iff, List.take_length]
          have h2 : countOccur t (c :: t) = 0 := countOccur_short (by simp)
          simp [countOccur, h1, h2]
  | c :: xs => by
      have ih := countOccur_append_self hbf hs xs
      simp only [List.cons_append, countOccur] at ih ⊢
      have hstart : startsList s (c :: (xs ++ s)) = startsList s (c :: xs) := by
        rcases le_or_lt s.length (c :: xs).length with hle | hlt
        · have h3 : startsList s ((c :: xs) ++ s) = startsList s (c :: xs) :=
            startsList_append_left s hle
          simpa using h3
        · have h1 : startsList s (c :: xs) = false := by
            cases hq : startsList s (c :: xs) with
            | false => rfl
            | true => exact absurd (startsList_le_length hq) (by omega)
          have h2 : startsList s (c :: (xs ++ s)) = false := by
            cases hq : startsList s (c :: (xs ++ s)) with
            | false => rfl
            | true =>
                have : (c :: xs) = [] := by
                  apply startsList_overhang hbf hlt
                  simpa using hq
                cases this
          rw [h1, h2]
      simp only [hstart]
      have ih2 : countOccur (xs.append s) s = countOccur xs s + 1 := ih
      rw [ih2]
      omega

/-- The sentinel has no nontrivial border. -/
theorem borderFree_doneSentinel : borderFreeB doneSentinel = true := by decide

/-! ### Event-trace lemmas (C4, C7, C10) -/

/-- The map `bytesOf` distributes over concatenation. -/
theorem bytesOf_append (a b : List StreamEvent) :
    bytesOf (a ++ b) = bytesOf a ++ bytesOf b :=
  List.filterMap_append ..

/-- Pure chunk traces deliver exactly their chunks. -/
theorem bytesOf_chunks (bs : List (List Char)) :
    bytesOf (bs.map .chunk) = bs := by
  induction bs with
  | nil => rfl
  | cons b rest ih => simp only [List.map_cons, bytesOf, List.filterMap_cons] at ih ⊢; simp [ih]

/-- The map `debitsOf` distributes over concatenation. -/
theorem debitsOf_append (a b : List StreamEvent) :
    debitsOf (a ++ b) = debitsOf a ++ debitsOf b :=
  List.filterMap_append ..

/-- Pure chunk traces contain no debit. -/
theorem debitsOf_chunks (bs : List (List Char)) :
    debitsOf (bs.map .chunk) = [] := by
  induction bs with
  | nil => rfl
  | cons b rest ih => simp only [List.map_cons, debitsOf, List.filterMap_cons] at ih ⊢; simp [ih]

/-- Interpreting a concatenated trace. -/
theorem runEffects_append (k : String) (l1 l2 : List StreamEvent) :
    ∀ m : ApiKeyManager, runEffects k m (l1 ++ l2) = runEffects k (runEffects k m l1) l2 := by
  induction l1 with
  | nil => intro m; rfl
  | cons e rest ih =>
      intro m
      cases e <;> simp only [List.cons_append, runEffects] <;> exact ih _

/-- Chunk events do not touch the key table. -/
theorem runEffects_chunks (k : String) (bs : List (List Char)) :
    ∀ m : ApiKeyManager, runEffects k m (bs.map .chunk) = m := by
  induction bs with
  | nil => intro m; rfl
  | cons b rest ih => intro m; simpa only [List.map_cons, runEffects] using ih m

/-- C4 (counterexample): for the one-chunk stream `contentChunk` under the
concrete request `sampleRequest`, the pre-request estimate is 1003 tokens
but the trace's single debit is the 3 tokens accumulated from the stream
body, and it happens after the chunk — not at stream start. -/
theorem streaming_debits_accumulated_not_estimate :
    estimateTokens sampleRequest = 1003 ∧
    response_generator [contentChunk] =
      some [.chunk contentChunk, .debit 3, .chunk doneSentinel] ∧
    debitsOf [.chunk contentChunk, .debit 3, .chunk doneSentinel] = [3] ∧
    ([3] : List ℕ) ≠ [1003] ∧
    ([.chunk contentChunk, .debit 3, .chunk doneSentinel] : List StreamEvent).head? =
      some (.chunk contentChunk) := by
  exact ⟨by decide, by decide, by decide, by decide, rfl⟩

/-- C4 (amended): every fault-free stream performs exactly one debit, of the
token count accumulated from the stream body, positioned after all body
chunks; interpreting the trace applies exactly that one deduction to the
key table. -/
theorem streaming_debit_once_at_end (chunks : List (List Char)) (h : chunks ≠ []) :
    ∃ events, response_generator chunks = some events ∧
      debitsOf events = [totalStreamTokens chunks] ∧
      events.take chunks.length = chunks.map .chunk ∧
      events[chunks.length]? = some (.debit (totalStreamTokens chunks)) ∧
      ∀ (m : ApiKeyManager) (api_key : String),
        runEffects api_key m events =
          (m.deduct_tokens api_key (totalStreamTokens chunks)).1 := by
  have hlast : chunks.getLast? = some (chunks.getLast h) := List.getLast?_eq_getLast chunks h
  refine ⟨_, by rw [response_generator, hlast], ?_, ?_, ?_, ?_⟩
  · rw [debitsOf_append, debitsOf_append, debitsOf_chunks]
    have htail : debitsOf (if endsList doneSentinel (chunks.getLast h) then []
        else [.chunk doneSentinel]) = [] := by
      split <;> rfl
    rw [htail]
    rfl
  · rw [List.append_assoc, List.take_append_eq_append_take,
      show chunks.length - (chunks.map StreamEvent.chunk).length = 0 by simp,
      List.take_zero, List.append_nil,
      List.take_of_length_le (by simp)]
  · rw [List.append_assoc, List.getElem?_append_right (by simp),
      show chunks.length - (chunks.map StreamEvent.chunk).length = 0 by simp,
      List.getElem?_append_left (by simp)]
    rfl
  · intro m api_key
    rw [runEffects_append, runEffects_append, runEffects_chunks]
    have htail : ∀ m2 : ApiKeyManager,
        runEffects api_key m2 (if endsList doneSentinel (chunks.getLast h) then []
          else [.chunk doneSentinel]) = m2 := by
      intro m2
      split <;> rfl
    rw [htail]
    rfl

/-- C4 (witness): the amended streaming-debit theorem evaluated on the
concrete one-chunk stream. -/
theorem streaming_debit_once_at_end_witness :
    ∃ events, response_generator [contentChunk] = some events ∧
      debitsOf events = [totalStreamTokens [contentChunk]] := by
  obtain ⟨ev, h1, h2, _⟩ := streaming_debit_once_at_end [contentChunk] (by decide)
  exact ⟨ev, h1, h2⟩

/-- C5 (counterexample): `usageResponse` carries `usage.total_tokens = 7`,
yet the count computed and debited by the non-streaming path is
`len("hello") // 4 = 1` — the `usage` field is never consulted. -/
theorem non_streaming_ignores_usage :
    usageResponse.usage_total_tokens = some 7 ∧
    (make_request_non_streaming testManager "cm-test" usageResponse).2 = 1 ∧
    (1 : ℕ) ≠ 7 := by
  exact ⟨rfl, by decide, by decide⟩

/-- C5 (amended): the non-streaming token count is always the sum over
choices of `len(message.content) // 4`; the `usage.total_tokens` field of
the response has no influence on the count or on the debit. -/
theorem non_streaming_count_spec (m : ApiKeyManager) (k : String) (r : ChatResponse)
    (u : Option ℕ) :
    (make_request_non_streaming m k r).2 = countResponseTokens r ∧
    (make_request_non_streaming m k r).1 = (m.deduct_tokens k (countResponseTokens r)).1 ∧
    countResponseTokens { r with usage_total_tokens := u } = countResponseTokens r ∧
    make_request_non_streaming m k { r with usage_total_tokens := u } =
      make_request_non_streaming m k r := by
  exact ⟨rfl, rfl, rfl, rfl⟩

/-- A debit event delivers no bytes. -/
theorem bytesOf_debit (n : ℕ) : bytesOf [StreamEvent.debit n] = [] := rfl

/-- The delivered bytes of the common stream body: all chunks, none of the
debit. -/
theorem flatBytes_body (chunks : List (List Char)) (n : ℕ) (tail : List StreamEvent) :
    flatBytes ((chunks.map StreamEvent.chunk ++ [StreamEvent.debit n]) ++ tail) =
      chunks.flatten ++ flatBytes tail := by
  unfold flatBytes
  rw [bytesOf_append, bytesOf_append, bytesOf_chunks, bytesOf_debit, List.append_nil,
    List.flatten_append]

/-- The delivered bytes of the lone sentinel chunk. -/
theorem flatBytes_sentinel : flatBytes [StreamEvent.chunk doneSentinel] = doneSentinel := by
  simp [flatBytes, bytesOf, List.filterMap_cons]

/-- Flattening a nonempty chunk list ends with its last chunk. -/
theorem flatten_eq_dropLast_append (chunks : List (List Char)) (h : chunks ≠ []) :
    chunks.flatten = (chunks.dropLast).flatten ++ chunks.getLast h := by
  conv_lhs => rw [← List.dropLast_append_getLast h]
  rw [List.flatten_append, List.flatten_cons, List.flatten_nil, List.append_nil]

/-- C7: every fault-free stream's delivered byte sequence ends with the
`data: [DONE]\n\n` sentinel; the sentinel is appended exactly when the last
upstream chunk does not already end with it (never duplicated), nothing
follows it, and — provided the upstream bytes contain the sentinel only as
their final frame, if at all — the delivered bytes contain exactly one
occurrence of it. -/
theorem stream_single_done_sentinel (chunks : List (List Char)) (h : chunks ≠ []) :
    ∃ events, response_generator chunks = some events ∧
      endsList doneSentinel (flatBytes events) = true ∧
      (endsList doneSentinel (chunks.getLast h) = true →
        flatBytes events = chunks.flatten) ∧
      (endsList doneSentinel (chunks.getLast h) = false →
        flatBytes events = chunks.flatten ++ doneSentinel) ∧
      (countOccur chunks.flatten doneSentinel =
          (if endsList doneSentinel (chunks.getLast h) = true then 1 else 0) →
        countOccur (flatBytes events) doneSentinel = 1) := by
  have hlast : chunks.getLast? = some (chunks.getLast h) := List.getLast?_eq_getLast chunks h
  by_cases hend : endsList doneSentinel (chunks.getLast h) = true
  · -- the last chunk already ends with the sentinel: nothing is appended
    refine ⟨_, by rw [response_generator, hlast], ?_, ?_, ?_, ?_⟩
    · rw [if_pos hend, flatBytes_body, show flatBytes ([] : List StreamEvent) = [] from rfl,
        List.append_nil, flatten_eq_dropLast_append chunks h]
      exact endsList_append _ hend
    · intro _
      rw [if_pos hend, flatBytes_body, show flatBytes ([] : List StreamEvent) = [] from rfl,
        List.append_nil]
    · intro hcontra
      rw [hcontra] at hend
      cases hend
    · intro hcount
      rw [if_pos hend] at hcount
      rw [if_pos hend, flatBytes_body, show flatBytes ([] : List StreamEvent) = [] from rfl,
        List.append_nil]
      exact hcount
  · -- the last chunk does not end with the sentinel: one is appended
    have hendF : endsList doneSentinel (chunks.getLast h) = false := by
      cases hB : endsList doneSentinel (chunks.getLast h) with
      | false => rfl
      | true => exact absurd hB hend
    refine ⟨_, by rw [response_generator, hlast], ?_, ?_, ?_, ?_⟩
    · rw [if_neg hend, flatBytes_body, flatBytes_sentinel]
      exact endsList_append _ (by decide)
    · intro hcontra
      rw [hcontra] at hendF
      cases hendF
    · intro _
      rw [if_neg hend, flatBytes_body, flatBytes_sentinel]
    · intro hcount
      rw [if_neg hend] at hcount
      rw [if_neg hend, flatBytes_body, flatBytes_sentinel,
        countOccur_append_self borderFree_doneSentinel (by decide), hcount]

/-- C7 (witness): the sentinel theorem evaluated on a two-chunk stream whose
last chunk is the sentinel frame itself. -/
theorem stream_single_done_sentinel_witness :
    ∃ events, response_generator [contentChunk, doneSentinel] = some events ∧
      endsList doneSentinel (flatBytes events) = true ∧
      countOccur (flatBytes events) doneSentinel = 1 := by
  obtain ⟨ev, h1, h2, _, _, h5⟩ :=
    stream_single_done_sentinel [contentChunk, doneSentinel] (by decide)
  exact ⟨ev, h1, h2, h5 (by decide)⟩

/-- C10: the OpenAI-compatible provider never touches the API-key table —
its stream trace contains no debit event (the accumulated count is only
logged), interpreting the trace leaves any key table unchanged, and the
non-streaming path returns the table untouched alongside the computed
count. -/
theorem openai_provider_no_debit (m : ApiKeyManager) (api_key : String)
    (chunks : List (List Char)) (r : ChatResponse) :
    (∀ events, openai_response_generator chunks = some events →
      debitsOf events = [] ∧ runEffects api_key m events = m) ∧
    (openai_make_request_non_streaming m r).1 = m ∧
    (openai_make_request_non_streaming m r).2 = countResponseTokens r := by
  refine ⟨?_, rfl, rfl⟩
  intro events hev
  unfold openai_response_generator at hev
  cases hlast : chunks.getLast? with
  | none => rw [hlast] at hev; cases hev
  | some last =>
      rw [hlast] at hev
      injection hev with hev
      subst hev
      constructor
      · rw [debitsOf_append, debitsOf_chunks]
        have htail : debitsOf (if endsList doneSentinel last then []
            else [.chunk doneSentinel]) = [] := by
          split <;> rfl
        rw [htail]
        rfl
      · rw [runEffects_append, runEffects_chunks]
        split <;> rfl

/-- C10 (witness): the no-debit theorem evaluated on the concrete one-chunk
stream and `usageResponse` against the concrete key table. -/
theorem openai_provider_no_debit_witness :
    debitsOf [.chunk contentChunk, .chunk doneSentinel] = [] ∧
    runEffects "cm-test" testManager [.chunk contentChunk, .chunk doneSentinel] =
      testManager := by
  exact (openai_provider_no_debit testManager "cm-test" [contentChunk] usageResponse).1
    [.chunk contentChunk, .chunk doneSentinel] (by decide)

/-! ### Round-robin lemmas (C9) -/

/-- Shifting by a fixed cursor and reducing mod the pool size is injective
on positions below the pool size. -/
theorem mod_shift_inj {N idx i j : ℕ} (hidx : idx < N) (hi : i < N) (hj : j < N)
    (h : (idx + i) % N = (idx + j) % N) : i = j := by
  have hmod : ∀ x : ℕ, x < N →
      (idx + x) % N = if idx + x < N then idx + x else idx + x - N := by
    intro x hx
    split
    · exact Nat.mod_eq_of_lt (by assumption)
    · rw [Nat.mod_eq_sub_mod (by omega)]
      exact Nat.mod_eq_of_lt (by omega)
  rw [hmod i hi, hmod j hj] at h
  split at h <;> split at h <;> omega

/-- The verdict of `is_rate_limited` reads only the deadline, the windows and the
timestamps. -/
theorem is_rate_limited_congr (a b : AccountInfo) (now : ℚ)
    (h1 : a.rate_limited_until = b.rate_limited_until)
    (h2 : a.rate_limit_windows = b.rate_limit_windows)
    (h3 : a.request_timestamps = b.request_timestamps) :
    (a.is_rate_limited now).1 = (b.is_rate_limited now).1 := by
  unfold AccountInfo.is_rate_limited
  rw [h1, h2, h3]
  split <;> rfl

/-- The pruning performed by `is_rate_limited` changes no other field. -/
theorem is_rate_limited_state (a : AccountInfo) (now : ℚ) :
    (a.is_rate_limited now).2.rate_limited_until = a.rate_limited_until ∧
    (a.is_rate_limited now).2.bad_credentials = a.bad_credentials ∧
    (a.is_rate_limited now).2.access_token = a.access_token ∧
    (a.is_rate_limited now).2.rate_limit_windows = a.rate_limit_windows := by
  unfold AccountInfo.is_rate_limited
  split
  · exact ⟨rfl, rfl, rfl, rfl⟩
  · exact ⟨rfl, rfl, rfl, rfl⟩

/-- The behaviour of `is_rate_limited` when no external deadline applies. -/
theorem is_rate_limited_no_ext (a : AccountInfo) (now : ℚ)
    (hext : ¬(0 < a.rate_limited_until ∧ now < a.rate_limited_until)) :
    (a.is_rate_limited now).2.request_timestamps =
      a.request_timestamps.filter
        (fun t => decide (now - maxDuration a.rate_limit_windows < t)) ∧
    (a.is_rate_limited now).1 =
      windowCheck (a.request_timestamps.filter
        (fun t => decide (now - maxDuration a.rate_limit_windows < t))) now
        a.rate_limit_windows := by
  unfold AccountInfo.is_rate_limited
  rw [if_neg hext]
  exact ⟨rfl, rfl⟩

/-- The behaviour of `is_rate_limited` under an active external deadline. -/
theorem is_rate_limited_ext (a : AccountInfo) (now : ℚ)
    (hext : 0 < a.rate_limited_until ∧ now < a.rate_limited_until) :
    a.is_rate_limited now = (true, a) := by
  unfold AccountInfo.is_rate_limited
  rw [if_pos hext]

/-- Re-checking the pruned account gives the same rate-limit verdict: the
pruning filter is idempotent. -/
theorem is_rate_limited_idem (a : AccountInfo) (now : ℚ) :
    ((a.is_rate_limited now).2.is_rate_limited now).1 = (a.is_rate_limited now).1 := by
  by_cases hext : 0 < a.rate_limited_until ∧ now < a.rate_limited_until
  · rw [is_rate_limited_ext a now hext]
    show (a.is_rate_limited now).1 = true
    rw [is_rate_limited_ext a now hext]
  · have hstate := is_rate_limited_state a now
    have hts := is_rate_limited_no_ext a now hext
    have hext2 : ¬(0 < (a.is_rate_limited now).2.rate_limited_until ∧
        now < (a.is_rate_limited now).2.rate_limited_until) := by
      rw [hstate.1]
      exact hext
    have htsb := is_rate_limited_no_ext ((a.is_rate_limited now).2) now hext2
    rw [htsb.2, hts.2, hstate.2.2.2, hts.1]
    congr 1
    rw [List.filter_filter]
    apply List.filter_congr
    intro t _
    cases decide (now - maxDuration a.rate_limit_windows < t) <;> rfl

/-- A usable account stays usable after selection: pruning and the
`last_used` stamp do not affect usability. -/
theorem is_usable_pickF (now : ℚ) (a : AccountInfo)
    (hu : (a.is_usable now).1 = true) : ((pickF now a).is_usable now).1 = true := by
  cases htok : a.access_token with
  | none =>
      have h2 : (a.is_usable now).2 = a := by
        unfold AccountInfo.is_usable
        rw [htok]
      unfold pickF
      rw [h2]
      unfold AccountInfo.is_usable
      rw [htok]
  | some t =>
      unfold AccountInfo.is_usable at hu
      rw [htok] at hu
      have hu' : (!(a.is_rate_limited now).1 && !a.bad_credentials) = true := hu
      rw [Bool.and_eq_true, Bool.not_eq_true', Bool.not_eq_true'] at hu'
      obtain ⟨h1, h2⟩ := hu'
      have hstate := is_rate_limited_state a now
      have hu2 : (a.is_usable now).2 = (a.is_rate_limited now).2 := by
        unfold AccountInfo.is_usable
        rw [htok]
      have hPtok : (pickF now a).access_token = some t := by
        show (a.is_usable now).2.access_token = some t
        rw [hu2, hstate.2.2.1, htok]
      have hPbad : (pickF now a).bad_credentials = false := by
        show (a.is_usable now).2.bad_credentials = false
        rw [hu2, hstate.2.1, h2]
      have hPrl : ((pickF now a).is_rate_limited now).1 = false := by
        have hcongr : ((pickF now a).is_rate_limited now).1 =
            ((a.is_rate_limited now).2.is_rate_limited now).1 := by
          apply is_rate_limited_congr
          · show (a.is_usable now).2.rate_limited_until = _
            rw [hu2]
          · show (a.is_usable now).2.rate_limit_windows = _
            rw [hu2]
          · show (a.is_usable now).2.request_timestamps = _
            rw [hu2]
        rw [hcongr, is_rate_limited_idem, h1]
      unfold AccountInfo.is_usable
      rw [hPtok]
      show (!((pickF now a).is_rate_limited now).1 && !(pickF now a).bad_credentials) = true
      rw [hPrl, hPbad]
      rfl

/-- A single `get_next_usable_account` call on an all-usable pool selects the
account under the cursor, stores its refreshed state back, and advances the
cursor exactly one position past the selection. -/
theorem next_usable_all (now : ℚ) (accounts : List AccountInfo) (idx : ℕ)
    (hidx : idx < accounts.length)
    (hu : ∀ a ∈ accounts, (a.is_usable now).1 = true) :
    get_next_usable_account accounts idx now =
      (some (pickF now (accounts.get ⟨idx, hidx⟩)),
       accounts.set idx (pickF now (accounts.get ⟨idx, hidx⟩)),
       (idx + 1) % accounts.length) := by
  unfold get_next_usable_account
  have hne : accounts.isEmpty = false := by
    rw [List.isEmpty_eq_false_iff_exists_mem]
    exact ⟨accounts.get ⟨idx, hidx⟩, List.get_mem accounts idx hidx⟩
  rw [hne]
  rw [if_neg (by simp)]
  obtain ⟨k, hk⟩ : ∃ k, accounts.length = k + 1 := ⟨accounts.length - 1, by omega⟩
  conv_lhs => rw [hk]
  show nextUsableGo now (k + 1) accounts idx = _
  unfold nextUsableGo
  have hget : accounts[idx]? = some (accounts.get ⟨idx, hidx⟩) := by
    rw [List.getElem?_eq_getElem hidx]
    rfl
  rw [hget]
  have hmem : accounts[idx] ∈ accounts := List.getElem_mem hidx
  simp [hu accounts[idx] hmem]
  exact ⟨rfl, rfl⟩

/-- Any `n ≤ N` consecutive calls on an all-usable pool return the accounts at
cursor positions `idx, idx+1, …` (mod `N`), each refreshed by `pickF`. -/
theorem runCalls_all (now : ℚ) : ∀ (n : ℕ) (accounts : List AccountInfo) (idx : ℕ),
    idx < accounts.length → n ≤ accounts.length →
    (∀ a ∈ accounts, (a.is_usable now).1 = true) →
    (runCalls now n accounts idx).1 =
      (List.range n).map
        (fun i => (accounts[(idx + i) % accounts.length]?).map (pickF now)) := by
  intro n
  induction n with
  | zero => intro accounts idx _ _ _; rfl
  | succ n ih =>
      intro accounts idx hidx hn hu
      have hstep := next_usable_all now accounts idx hidx hu
      have hN : 0 < accounts.length := by omega
      simp only [runCalls, hstep]
      have hset_len : (accounts.set idx (pickF now (accounts.get ⟨idx, hidx⟩))).length
          = accounts.length := List.length_set ..
      have hidx2 : (idx + 1) % accounts.length <
          (accounts.set idx (pickF now (accounts.get ⟨idx, hidx⟩))).length := by
        rw [hset_len]
        exact Nat.mod_lt _ hN
      have hu2 : ∀ a ∈ accounts.set idx (pickF now (accounts.get ⟨idx, hidx⟩)),
          (a.is_usable now).1 = true := by
        intro a ha
        rcases List.mem_or_eq_of_mem_set ha with hmem | heq
        · exact hu a hmem
        · rw [heq]
          exact is_usable_pickF now _ (hu _ (List.get_mem accounts idx hidx))
      have htail := ih (accounts.set idx (pickF now (accounts.get ⟨idx, hidx⟩)))
        ((idx + 1) % accounts.length) hidx2 (by omega) hu2
      rw [htail]
      simp only [List.range_succ_eq_map, List.map_cons, List.map_map]
      congr 1
      · show some (pickF now (accounts.get ⟨idx, hidx⟩)) =
          Option.map (pickF now) accounts[(idx + 0) % accounts.length]?
        rw [Nat.add_zero, Nat.mod_eq_of_lt hidx, List.getElem?_eq_getElem hidx]
        rfl
      · apply List.map_congr_left
        intro i hi
        have hi' : i < n := List.mem_range.mp hi
        simp only [Function.comp_apply, Nat.succ_eq_add_one]
        rw [hset_len, Nat.mod_add_mod,
          show idx + 1 + i = idx + (i + 1) by omega]
        congr 1
        apply List.getElem?_set_ne
        intro hcontra
        -- idx = (idx + (i + 1)) % N with 0 < i + 1 < n + 1 ≤ N is impossible
        have hq : (idx + 0) % accounts.length = (idx + (i + 1)) % accounts.length := by
          rw [Nat.add_zero, Nat.mod_eq_of_lt hidx]
          exact hcontra
        have := mod_shift_inj hidx (by omega) (by omega) hq
        omega

/-- C9: on a pool of `N` accounts, all usable throughout, `N` consecutive
`get_next_usable_account` calls return the accounts at the `N` pairwise
distinct cursor positions `idx, idx+1, …, idx+N−1 (mod N)` — every pool
position is selected exactly once — and each call advances the cursor
exactly one position past its selection. -/
theorem round_robin_all_usable (now : ℚ) (accounts : List AccountInfo) (idx : ℕ)
    (hidx : idx < accounts.length)
    (hu : ∀ a ∈ accounts, (a.is_usable now).1 = true) :
    ((runCalls now accounts.length accounts idx).1 =
      (List.range accounts.length).map
        (fun i => (accounts[(idx + i) % accounts.length]?).map (pickF now))) ∧
    (∀ i j, i < accounts.length → j < accounts.length →
      (idx + i) % accounts.length = (idx + j) % accounts.length → i = j) ∧
    (∀ p, p < accounts.length → ∃ i, i < accounts.length ∧
      (idx + i) % accounts.length = p) ∧
    (∀ k, k < accounts.length →
      (get_next_usable_account accounts ((idx + k) % accounts.length) now).2.2 =
        ((idx + k) % accounts.length + 1) % accounts.length) := by
  have hN : 0 < accounts.length := by omega
  refine ⟨runCalls_all now accounts.length accounts idx hidx (le_refl _) hu, ?_, ?_, ?_⟩
  · intro i j hi hj hij
    exact mod_shift_inj hidx hi hj hij
  · intro p hp
    refine ⟨(p + accounts.length - idx) % accounts.length, Nat.mod_lt _ hN, ?_⟩
    have h1 : (idx + (p + accounts.length - idx) % accounts.length) % accounts.length =
        (idx + (p + accounts.length - idx)) % accounts.length := Nat.add_mod_mod ..
    rw [h1, show idx + (p + accounts.length - idx) = p + accounts.length by omega,
      Nat.add_mod_right, Nat.mod_eq_of_lt hp]
  · intro k hk
    have hklt : (idx + k) % accounts.length < accounts.length := Nat.mod_lt _ hN
    rw [next_usable_all now accounts ((idx + k) % accounts.length) hklt hu]

/-- C9 (witness): the round-robin theorem evaluated on the concrete
two-account pool, both accounts usable. -/
theorem round_robin_all_usable_witness :
    0 < pool2.length ∧
    (runCalls 0 pool2.length pool2 0).1 =
      (List.range pool2.length).map
        (fun i => (pool2[(0 + i) % pool2.length]?).map (pickF 0)) := by
  refine ⟨by decide, ?_⟩
  exact (round_robin_all_usable 0 pool2 0 (by decide) (by decide)).1

end CopilotMore
